import Mathlib

/-!
Verification of the file.d configuration, signal handling, and clickhouse
output layers against their natural-language specification.

Go strings are modelled as `List Char` (the inputs of interest are ASCII, so
byte indexing and rune indexing coincide).  Go standard-library helpers used
by the code (`strings.IndexByte`, `strings.IndexAny`, `strings.Split`,
`strings.SplitN`, `strings.TrimSpace`, `strings.ToLower`, `strconv.Atoi`)
are embedded as executable Lean functions below.
-/

/-! ## Generic Go string helpers -/

/-! ## C1 — cfg.ParseFieldSelector

Embedding of `ParseFieldSelector` (cfg package).  The Go function repeatedly
finds the next dot with `strings.IndexByte` and either treats it as an escaped
dot (preceded by a backslash), an embedded dot (followed by another dot), or a
component separator.  The loop consumes at least one character per iteration,
so it is embedded with a fuel argument initialised to `length + 1`, which is
always sufficient. -/

/-- First index in `s` whose character satisfies `p`, or `none`.
Common core of `strings.IndexByte` and `strings.IndexAny`. -/

def goFindIdx (p : Char → Bool) : List Char → Option Nat
  | [] => none
  | c :: rest => if p c then some 0 else (goFindIdx p rest).map (· + 1)

/-- `strings.IndexByte s c` on our char-list model. -/

def goIndexByte (c : Char) (s : List Char) : Option Nat :=
  goFindIdx (fun x => x = c) s


/-- One-to-one embedding of the loop body of `ParseFieldSelector`. -/

def selectorLoop : Nat → List Char → List Char → List (List Char) → List (List Char)
  | 0, _, _, result => result
  | fuel + 1, selector, tailAcc, result =>
    match goIndexByte '.' selector with
    | none =>
      if selector.length + tailAcc.length ≠ 0 then result ++ [tailAcc ++ selector] else result
    | some pos =>
      if 0 < pos ∧ selector.get? (pos - 1) = some '\\' then
        selectorLoop fuel (selector.drop (pos + 1)) (tailAcc ++ selector.take (pos - 1) ++ ['.'])
          result
      else if selector.get? (pos + 1) = some '.' then
        selectorLoop fuel (selector.drop (pos + 2)) (selector.take (pos + 1)) result
      else
        selectorLoop fuel (selector.drop (pos + 1)) [] (result ++ [tailAcc ++ selector.take pos])

/-- `cfg.ParseFieldSelector` (src/unnamed/part_003, lines 464-496). -/

def ParseFieldSelector (selector : List Char) : List (List Char) :=
  selectorLoop (selector.length + 1) selector [] []

/-- The selector semantics exactly as the specification words it: scan left to
right; a backslash-escaped dot contributes a literal dot to the current
component, a doubled dot contributes an embedded dot, and an unescaped single
dot ends the component.  A trailing empty component is not emitted. -/

def specSelectorScan : List Char → List Char → List (List Char)
  | [], cur => if cur = [] then [] else [cur]
  | [a], cur => if a = '.' then [cur] else [cur ++ [a]]
  | a :: b :: rest, cur =>
    if a = '\\' ∧ b = '.' then specSelectorScan rest (cur ++ ['.'])
    else if a = '.' ∧ b = '.' then specSelectorScan rest (cur ++ ['.'])
    else if a = '.' then cur :: specSelectorScan (b :: rest) []
    else specSelectorScan (b :: rest) (cur ++ [a])

/-- Selector splitting as the specification describes it. -/

def parseSelectorSpec (selector : List Char) : List (List Char) :=
  specSelectorScan selector []

/-- The amended selector semantics: identical to `specSelectorScan`, except
that the current component is tracked as two pieces: `tp` holds the prefix
accumulated by earlier escaped or doubled dots, `fp` the characters scanned
since.  A doubled dot *discards* `tp` (this is what the code does: its
doubled-dot branch overwrites the accumulated tail), while an escaped dot
keeps both pieces. -/

def amendedScan : List Char → List Char → List Char → List (List Char)
  | [], tp, fp => if tp ++ fp = [] then [] else [tp ++ fp]
  | [a], tp, fp => if a = '.' then [tp ++ fp] else [tp ++ fp ++ [a]]
  | a :: b :: rest, tp, fp =>
    if a = '\\' ∧ b = '.' then amendedScan rest (tp ++ fp ++ ['.']) []
    else if a = '.' ∧ b = '.' then amendedScan rest (fp ++ ['.']) []
    else if a = '.' then (tp ++ fp) :: amendedScan (b :: rest) [] []
    else amendedScan (b :: rest) tp (fp ++ [a])

/-- Amended selector splitting: what the code computes. -/

def parseSelectorAmended (selector : List Char) : List (List Char) :=
  amendedScan selector [] []

/-- The operator characters of the expression mini-language, in the order the
code passes them to `strings.IndexAny`. -/
def isOpChar (c : Char) : Bool :=
  c = '*' ∨ c = '/' ∨ c = '+' ∨ c = '-'

/-- ASCII white space, as trimmed by `strings.TrimSpace` (the config values in
scope are ASCII). -/
def isSpaceChar (c : Char) : Bool :=
  c = ' ' ∨ c = '\t' ∨ c = '\n' ∨ c = '\r' ∨ c = '\x0b' ∨ c = '\x0c'

/-- `strings.TrimSpace` on our char-list model. -/
def goTrimSpace (s : List Char) : List Char :=
  ((s.dropWhile isSpaceChar).reverse.dropWhile isSpaceChar).reverse

def isDigitChar (c : Char) : Bool :=
  '0' ≤ c ∧ c ≤ '9'

def digitVal (c : Char) : Nat :=
  c.toNat - 48

/-- Accumulating decimal reader: succeeds only if every character is a digit. -/
def digitsToNatAux : List Char → Nat → Option Nat
  | [], acc => some acc
  | c :: rest, acc =>
    if isDigitChar c then digitsToNatAux rest (acc * 10 + digitVal c) else none

/-- The bounds of Go's 64-bit `int` (math.MaxInt64 and math.MinInt64). -/
def int64Max : Int := 9223372036854775807

def int64Min : Int := -9223372036854775808

/-- Reduction of an unbounded integer to Go's `int`: two's-complement
wrap-around at 64 bits. -/
def wrapInt64 (n : Int) : Int :=
  (n + 9223372036854775808).emod 18446744073709551616 - 9223372036854775808

/-- `strconv.Atoi`: an optional sign followed by at least one digit, and the
value must fit in a 64-bit int — a syntactically valid literal outside
[math.MinInt64, math.MaxInt64] is a range error. -/
def goAtoi : List Char → Option Int
  | [] => none
  | '+' :: rest =>
    if rest = [] then none
    else (digitsToNatAux rest 0).bind (fun n =>
      if (n : Int) ≤ int64Max then some (n : Int) else none)
  | '-' :: rest =>
    if rest = [] then none
    else (digitsToNatAux rest 0).bind (fun n =>
      if int64Min ≤ -(n : Int) then some (-(n : Int)) else none)
  | s =>
    (digitsToNatAux s 0).bind (fun n =>
      if (n : Int) ≤ int64Max then some (n : Int) else none)

/-- Lookup in the integer environment (`values map[string]int`). -/
def lookupEnv : List (List Char × Int) → List Char → Option Int
  | [], _ => none
  | (k, v) :: rest, key => if k = key then some v else lookupEnv rest key

/-- Operand resolution of the expression branch of `ParseField`: try
`strconv.Atoi` first, then the `values` environment. -/
def resolveOperand (env : List (List Char × Int)) (s : List Char) : Option Int :=
  match goAtoi s with
  | some n => some n
  | none => lookupEnv env s

/-- Outcome of the expression evaluator: a stored integer, a returned error,
or a runtime panic (the unguarded integer division of the Go code panics when
the divisor is zero). -/
inductive ExprOut where
  | ok (n : Int)
  | err (msg : List Char)
  | panicked
deriving DecidableEq

/-- The `parse:"expression"` branch of `cfg.ParseField`
(src/unnamed/part_003, lines 378-426): find the first operator character with
`strings.IndexAny`; if there is none the whole string must be an integer;
otherwise split there, resolve both trimmed operands via `strconv.Atoi` or the
environment, and apply the operator with Go `int` semantics: addition,
subtraction and multiplication wrap at 64 bits; division truncates toward
zero, wraps on math.MinInt64 / -1 (defined wrap-around in Go) and panics on a
zero divisor.  The environment holds Go ints, so its values lie in the int64
range; the evaluator applies the same 64-bit reduction regardless. -/
def parseExpressionValue (s : List Char) (env : List (List Char × Int)) : ExprOut :=
  match goFindIdx isOpChar s with
  | none =>
    match goAtoi s with
    | some n => .ok n
    | none => .err ("cannot convert to int: ".data ++ s)
  | some pos =>
    let op1 := goTrimSpace (s.take pos)
    let op := (s.get? pos).getD ' '
    let op2 := goTrimSpace (s.drop (pos + 1))
    match resolveOperand env op1 with
    | none => .err ("cannot find value in expression: ".data ++ op1)
    | some a =>
      match resolveOperand env op2 with
      | none => .err ("cannot find value in expression: ".data ++ op2)
      | some b =>
        if op = '+' then .ok (wrapInt64 (a + b))
        else if op = '-' then .ok (wrapInt64 (a - b))
        else if op = '*' then .ok (wrapInt64 (a * b))
        else if op = '/' then (if b = 0 then .panicked else .ok (wrapInt64 (Int.tdiv a b)))
        else .err "unknown operation".data

/-- Application of one of the four operators in Go `int` (wrapping 64-bit)
arithmetic, as the claim relations use it. -/
def applyBinOp (c : Char) (a b : Int) : Option Int :=
  if c = '+' then some (wrapInt64 (a + b))
  else if c = '-' then some (wrapInt64 (a - b))
  else if c = '*' then some (wrapInt64 (a * b))
  else if c = '/' then some (wrapInt64 (Int.tdiv a b))
  else none

/-- The integer environment the claim names: it contains capacity and
gomaxprocs (concrete values are irrelevant to the claims). -/
def stdEnv : List (List Char × Int) :=
  [("capacity".data, 1024), ("gomaxprocs".data, 4)]

/-- C2 as stated: the string is accepted if it is a single integer literal
(anything `strconv.Atoi` accepts), or exactly one binary operation whose two
operands (trimmed) are integer literals or names of the environment. -/
inductive ClaimExprAccept (env : List (List Char × Int)) : List Char → Int → Prop where
  | lit (s : List Char) (n : Int) (h : goAtoi s = some n) : ClaimExprAccept env s n
  | binop (s1 : List Char) (c : Char) (s2 : List Char) (a b r : Int)
      (hop : isOpChar c = true)
      (h1 : resolveOperand env (goTrimSpace s1) = some a)
      (h2 : resolveOperand env (goTrimSpace s2) = some b)
      (hr : applyBinOp c a b = some r) :
      ClaimExprAccept env (s1 ++ c :: s2) r

/-- C2 amended: as `ClaimExprAccept`, but a single integer literal is
accepted only if it contains no operator character (so explicitly signed
literals are rejected), the left operand of a binary operation contains no
operator character (the string is split at the first operator character), and
a division needs a non-zero divisor (a zero divisor panics, see C8). -/
inductive AmendedExprAccept (env : List (List Char × Int)) : List Char → Int → Prop where
  | lit (s : List Char) (n : Int) (hfree : ∀ x ∈ s, isOpChar x = false)
      (h : goAtoi s = some n) : AmendedExprAccept env s n
  | binop (s1 : List Char) (c : Char) (s2 : List Char) (a b r : Int)
      (hfree : ∀ x ∈ s1, isOpChar x = false) (hop : isOpChar c = true)
      (h1 : resolveOperand env (goTrimSpace s1) = some a)
      (h2 : resolveOperand env (goTrimSpace s2) = some b)
      (hdiv : c = '/' → b ≠ 0)
      (hr : applyBinOp c a b = some r) :
      AmendedExprAccept env (s1 ++ c :: s2) r

/-- `strings.Split` with a one-character separator. -/
def goSplitCharAux (sep : Char) : List Char → List Char → List (List Char)
  | [], acc => [acc]
  | c :: rest, acc =>
    if c = sep then acc :: goSplitCharAux sep rest [] else goSplitCharAux sep rest (acc ++ [c])

def goSplitChar (s : List Char) (sep : Char) : List (List Char) :=
  goSplitCharAux sep s []

/-- `strings.SplitN(s, sep, 2)` with a one-character separator. -/
def goSplitN2 (s : List Char) (sep : Char) : List (List Char) :=
  match goIndexByte sep s with
  | none => [s]
  | some i => [s.take i, s.drop (i + 1)]

def goToLowerChar (c : Char) : Char :=
  if 'A' ≤ c ∧ c ≤ 'Z' then Char.ofNat (c.toNat + 32) else c

/-- `strings.ToLower` (the environment names in scope are ASCII). -/
def goToLower (s : List Char) : List Char :=
  s.map goToLowerChar

/-- `strings.TrimPrefix`. -/
def goTrimPre (s pre : List Char) : List Char :=
  if pre.isPrefixOf s then s.drop pre.length else s

/-- `strings.TrimSuffix`. -/
def goTrimSuf (s suf : List Char) : List Char :=
  if suf.isSuffixOf s then s.take (s.length - suf.length) else s

/-- `strings.ReplaceAll` body; each step consumes at least one character, so a
fuel of `length + 1` is always enough. -/
def goReplaceAllAux (pat rep : List Char) : Nat → List Char → List Char
  | 0, s => s
  | _ + 1, [] => []
  | fuel + 1, c :: rest =>
    if pat.isPrefixOf (c :: rest) then
      rep ++ goReplaceAllAux pat rep fuel ((c :: rest).drop pat.length)
    else c :: goReplaceAllAux pat rep fuel rest

/-- `strings.ReplaceAll s pat rep` for a non-empty pattern (all uses in the
code have non-empty patterns). -/
def goReplaceAll (s pat rep : List Char) : List Char :=
  if pat = [] then s else goReplaceAllAux pat rep (s.length + 1) s

/-! ## C5 / C7 — config JSON model

`simplejson.Json` values are modelled as an assoc-list JSON tree (the claims
only involve string leaves and objects). -/

inductive Jx where
  | null
  | str (s : List Char)
  | obj (fields : List (List Char × Jx))

def assocGet : List (List Char × Jx) → List Char → Option Jx
  | [], _ => none
  | (k, v) :: rest, key => if k = key then some v else assocGet rest key

def assocSet : List (List Char × Jx) → List Char → Jx → List (List Char × Jx)
  | [], key, v => [(key, v)]
  | (k, w) :: rest, key, v =>
    if k = key then (k, v) :: rest else (k, w) :: assocSet rest key v

/-- `Json.MustMap` returns the object fields, or an empty map on any other
value. -/
def jxFields : Jx → List (List Char × Jx)
  | .obj fs => fs
  | _ => []

/-- `Json.Get`: field of an object, an empty value otherwise. -/
def jxGet (j : Jx) (key : List Char) : Jx :=
  (assocGet (jxFields j) key).getD Jx.null

/-- `Json.String()`: succeeds only on string values. -/
def jxAsString : Jx → Option (List Char)
  | .str s => some s
  | _ => none

/-- `simplejson.Json.SetPath`: walk the path creating (or overwriting
non-object values with) nested objects, and set the final key; an empty path
replaces the whole value. -/
def setPath (j : Jx) : List (List Char) → Jx → Jx
  | [], v => v
  | p :: ps, v =>
    let fs := jxFields j
    let child := (assocGet fs p).getD Jx.null
    Jx.obj (assocSet fs p (setPath child ps v))

def filedPre : List Char := "FILED_".data

/-- One iteration of `cfg.applyEnvs` (src/unnamed/part_003, lines 96-112) on
the environment entry string `env` (of the form key=value): split on the
first equals sign; an entry without one is a parse error; a key with the
FILED_ prefix lowercases the key, splits it on underscores, drops the first
segment and sets that path to the value; any other entry leaves the config
unchanged. -/
def applyEnvOne (json : Jx) (env : List Char) : Except (List Char) Jx :=
  match goSplitN2 env '=' with
  | [k, v] =>
    if filedPre.isPrefixOf k then
      Except.ok (setPath json ((goSplitChar (goToLower k) '_').drop 1) (Jx.str v))
    else Except.ok json
  | _ => Except.error env

/-- `cfg.applyEnvs` over the whole environment, first error aborts. -/
def applyEnvs : List (List Char) → Jx → Except (List Char) Jx
  | [], json => Except.ok json
  | e :: rest, json =>
    match applyEnvOne json e with
    | Except.ok j => applyEnvs rest j
    | Except.error m => Except.error m

/-- The path a FILED_ variable overrides, as the spec words it: lowercase the
name, split it on underscores, and drop the filed prefix segment. -/
def envOverridePath (k : List Char) : List (List Char) :=
  (goSplitChar (goToLower k) '_').drop 1

structure FdConfig where
  vaultAddress : List Char
  vaultToken : List Char
  vaultShouldUse : Bool
  pipelines : List (List Char × Jx)

/-- `cfg.parseConfig` (src/unnamed/part_003, lines 114-143).  `Except.error`
models `logger.Fatalf` (the process terminates with a non-zero exit code
before any pipeline is constructed); vault address and token parse failures
only produce warnings and leave the empty string. -/
def parseConfigModel (json : Jx) : Except (List Char) FdConfig :=
  let vault := jxGet json "vault".data
  let address := (jxAsString (jxGet vault "address".data)).getD []
  let token := (jxAsString (jxGet vault "token".data)).getD []
  let pipelinesJson := jxGet json "pipelines".data
  let pipelines := jxFields pipelinesJson
  if pipelines.length = 0 then Except.error "no pipelines defined in config".data
  else Except.ok
    { vaultAddress := address
      vaultToken := token
      vaultShouldUse := !address.isEmpty && !token.isEmpty
      pipelines := pipelines.map (fun kv => (kv.1, jxGet pipelinesJson kv.1)) }

/-! ## C9 — cfg.tryGetSecret -/

inductive SecretOut where
  | notSecret
  | escaped (s : List Char)
  | requested (path key : List Char)
  | panicked
deriving DecidableEq

def vaultPre : List Char := "vault(".data

def escVaultPre : List Char := '\\' :: vaultPre

/-- `cfg.tryGetSecret` (src/unnamed/part_003, lines 171-200) on a string
config value: an escaped reference is returned verbatim with the escape
removed; a non-reference is left alone; otherwise the text inside vault(...)
is stripped of spaces and split on commas, and the code indexes elements 0
and 1 of the result — which panics (index out of range) when the split
produced fewer than two parts.  `requested` stands for the call
`vault.GetSecret(pathAndKey[0], pathAndKey[1])`. -/
def tryGetSecret (s : List Char) : SecretOut :=
  if escVaultPre.isPrefixOf s then SecretOut.escaped (goReplaceAll s escVaultPre vaultPre)
  else if !(vaultPre.isPrefixOf s) || !([')'].isSuffixOf s) then SecretOut.notSecret
  else
    let args := goTrimSuf (goTrimPre s vaultPre) [')']
    let noSpaces := goReplaceAll args [' '] []
    let pathAndKey := goSplitChar noSpaces ','
    match pathAndKey with
    | p :: k :: _ => SecretOut.requested p k
    | _ => SecretOut.panicked

/-! ## C4 — clickhouse output retry loop -/

structure RetryState where
  attempts : Nat
  sleeps : Nat
  succeeded : Bool
deriving DecidableEq

/-- The insertion loop of clickhouse `Plugin.out` (src/unnamed/part_001,
lines 304-314): `for i := retry; i > 0; i--`; attempt `k` is the k-th call of
`p.try`; each failed attempt logs, sleeps one `retention` period and
continues; the first success increments the written-events metric and breaks.
`attempts` counts executed attempts, `sleeps` the retention pauses taken, and
`succeeded` tells whether `err` is nil after the loop. -/
def insertRetryLoop (attempt : Nat → Bool) : Nat → Nat → RetryState
  | 0, k => { attempts := k, sleeps := k, succeeded := false }
  | i + 1, k =>
    if attempt k then { attempts := k + 1, sleeps := k, succeeded := true }
    else insertRetryLoop attempt i (k + 1)

inductive ChOutResult where
  | written (attempts sleeps : Nat)
  | fatalPoolClosed (attempts sleeps : Nat)
  | skippedNoAttempt
deriving DecidableEq

/-- The retry-and-crash tail of `Plugin.out` (lines 304-319): on a nil error
the batch was written; otherwise the connection pool is closed and
`logger.Fatalf` crashes the process.  When the loop made no attempt at all
(retry < 1, excluded by `Start`'s validation) `err` stays nil and the
function just returns. -/
def clickhouseInsertWithRetry (retry : Nat) (attempt : Nat → Bool) : ChOutResult :=
  let rs := insertRetryLoop attempt retry 0
  if rs.succeeded then ChOutResult.written rs.attempts rs.sleeps
  else if rs.attempts = 0 then ChOutResult.skippedNoAttempt
  else ChOutResult.fatalPoolClosed rs.attempts rs.sleeps

/-- Default of the `retry` config field (tag default:"3", part_001 line 118). -/
def clickhouseRetryDefault : Nat := 3

/-- Default of the `retention` config field in milliseconds
(tag default:"50ms", part_001 line 123). -/
def clickhouseRetentionDefaultMs : Nat := 50

def alwaysFailingInsert : Nat → Bool := fun _ => false

def succeedOnSecondInsert : Nat → Bool := fun k => decide (k = 1)

/-! ## C6 — signal handling -/

inductive GoSignal where
  | sighup
  | sigint
  | sigterm
deriving DecidableEq

inductive DaemonAction where
  | exitWithCode (code : Nat)
  | restartFromConfigFile
deriving DecidableEq

/-- The 3-second deadline passed to `fileD.Stop` in `listenSignals`
(src/unnamed/part_002, lines 108 and 119). -/
def stopTimeoutSeconds : Nat := 3

/-- One round of `listenSignals` (src/unnamed/part_002, lines 97-129).
`stopOk d` reports whether `fileD.Stop` returns without error within a
d-second deadline.  On SIGHUP a successful stop is followed by `start()`,
which builds and starts a fresh instance from the config file; on
SIGINT/SIGTERM a successful stop signals the exit channel and `main` returns,
exiting with code 0.  A failed stop calls `logger.Fatalf`, which exits with a
non-zero code (1). -/
def listenSignalsStep (stopOk : Nat → Bool) (s : GoSignal) : DaemonAction :=
  match s with
  | GoSignal.sighup =>
    if stopOk stopTimeoutSeconds then DaemonAction.restartFromConfigFile
    else DaemonAction.exitWithCode 1
  | GoSignal.sigint =>
    if stopOk stopTimeoutSeconds then DaemonAction.exitWithCode 0
    else DaemonAction.exitWithCode 1
  | GoSignal.sigterm =>
    if stopOk stopTimeoutSeconds then DaemonAction.exitWithCode 0
    else DaemonAction.exitWithCode 1

/-! ## C10 — clickhouse timestamp handling -/

/-- Unix seconds of the upper timestamp bound (named nineThousandYear in the
code, part_001 line 41). -/
def nineThousandYear : Nat := 221842627200

/-- Gregorian civil date (year, month, day) from days since 1970-01-01,
standard era-based algorithm, valid for the non-negative range used here. -/
def civilFromDays (days : Nat) : Nat × Nat × Nat :=
  let z := days + 719468
  let era := z / 146097
  let doe := z % 146097
  let yoe := (doe - doe / 1460 + doe / 36524 - doe / 146096) / 365
  let y := yoe + era * 400
  let doy := doe - (365 * yoe + yoe / 4 - yoe / 100)
  let mp := (5 * doy + 2) / 153
  let d := doy - (153 * mp + 2) / 5 + 1
  let m := if mp < 10 then mp + 3 else mp - 9
  (if m ≤ 2 then y + 1 else y, m, d)

def pad2 (n : Nat) : List Char :=
  [Char.ofNat (48 + n / 10 % 10), Char.ofNat (48 + n % 10)]

def pad4 (n : Nat) : List Char :=
  [Char.ofNat (48 + n / 1000 % 10), Char.ofNat (48 + n / 100 % 10),
    Char.ofNat (48 + n / 10 % 10), Char.ofNat (48 + n % 10)]

/-- `time.Unix(t, 0).Format(time.RFC3339)` in UTC for non-negative `t`. -/
def rfc3339OfUnix (t : Nat) : List Char :=
  let days := t / 86400
  let secs := t % 86400
  let ymd := civilFromDays days
  pad4 ymd.1 ++ ['-'] ++ pad2 ymd.2.1 ++ ['-'] ++ pad2 ymd.2.2 ++ ['T'] ++
    pad2 (secs / 3600) ++ [':'] ++ pad2 (secs % 3600 / 60) ++ [':'] ++
    pad2 (secs % 60) ++ ['Z']

inductive ChFieldErr where
  | wrongType
  | timestampDistantPastOrFuture
deriving DecidableEq

/-- The chTimestamp branch of `addFieldToValues` (src/unnamed/part_001, lines
368-377) on the integer value of the event field: out-of-range values give
ErrTimestampFromDistantPastOrFuture, in-range values the RFC3339 rendering of
the value as Unix seconds. -/
def addTimestampFieldValue (tint : Int) : Except ChFieldErr (List Char) :=
  if tint < 0 ∨ tint > (nineThousandYear : Int) then
    Except.error ChFieldErr.timestampDistantPastOrFuture
  else Except.ok (rfc3339OfUnix tint.toNat)

inductive EventOutcome where
  | inserted (v : List Char)
  | discarded
  | fatalCrash
deriving DecidableEq

/-- The per-event error handling of clickhouse `Plugin.out`
(src/unnamed/part_001, lines 253-284) for an event whose timestamp column has
integer value `tint`: a failing event is discarded from the batch (counted in
the discarded metric) — or crashes the process when strict mode is on — and
only a passing event contributes its values to the insert. -/
def processTimestampEvent (strict : Bool) (tint : Int) : EventOutcome :=
  match addTimestampFieldValue tint with
  | Except.ok v => EventOutcome.inserted v
  | Except.error _ => if strict then EventOutcome.fatalCrash else EventOutcome.discarded

/-! ## C3 — mask action (spec-modelled)

The mask plugin implementation (`maskValue` / `Do`) is not part of the
available sources — only its tests are — so the masking behaviour is modelled
from the specification scenario. -/

/-- A word character in the sense of the regexp word boundary `\b`. -/
def isWordChar (c : Char) : Bool :=
  isDigitChar c ∨ ('a' ≤ c ∧ c ≤ 'z') ∨ ('A' ≤ c ∧ c ≤ 'Z') ∨ c = '_'

/-- Greedily take up to `n` leading digits. -/
def takeUpToDigits : Nat → List Char → List Char × List Char
  | 0, s => ([], s)
  | _ + 1, [] => ([], [])
  | n + 1, c :: rest =>
    if isDigitChar c then
      let dr := takeUpToDigits n rest
      (c :: dr.1, dr.2)
    else ([], c :: rest)

/-- Greedily take an optional single non-digit (the regexp piece `\D?`). -/
def takeOptNonDigit : List Char → List Char × List Char
  | [] => ([], [])
  | c :: rest => if isDigitChar c then ([], c :: rest) else ([c], rest)

/-- Replace every character of a matched group by an asterisk. -/
def starsFor (g : List Char) : List Char :=
  g.map (fun _ => '*')

/-- Modelled from the spec: greedy match of the card regex
of concrete scenario 1 at the current position, with `prev` the character
just before it (for the word boundaries).  The pattern is four groups of one
to four digits, the groups separated by an optional non-digit, the whole
bounded by word boundaries; masking with groups [1,2,3,4] replaces every
digit of the four groups with an asterisk and keeps the separators.  Returns
the replacement text and the number of characters consumed.  (Greedy matching
without backtracking suffices for the scenario input, whose groups are
full four-digit runs.) -/
def matchCardAt (prev : Option Char) (s : List Char) : Option (List Char × Nat) :=
  let boundaryBefore := match prev with
    | none => true
    | some c => !(isWordChar c)
  if !boundaryBefore then none else
  let g1r := takeUpToDigits 4 s
  if g1r.1 = [] then none else
  let d1r := takeOptNonDigit g1r.2
  let g2r := takeUpToDigits 4 d1r.2
  if g2r.1 = [] then none else
  let d2r := takeOptNonDigit g2r.2
  let g3r := takeUpToDigits 4 d2r.2
  if g3r.1 = [] then none else
  let d3r := takeOptNonDigit g3r.2
  let g4r := takeUpToDigits 4 d3r.2
  if g4r.1 = [] then none else
  let boundaryAfter := match g4r.2 with
    | [] => true
    | c :: _ => !(isWordChar c)
  if !boundaryAfter then none else
  some (starsFor g1r.1 ++ d1r.1 ++ starsFor g2r.1 ++ d2r.1 ++
      starsFor g3r.1 ++ d3r.1 ++ starsFor g4r.1,
    g1r.1.length + d1r.1.length + g2r.1.length + d2r.1.length +
      g3r.1.length + d3r.1.length + g4r.1.length)

/-- Modelled from the spec: scan the value left to right, replacing every
card match and reporting whether any replacement happened (the second
component the plugin's maskValue returns).  A match always consumes at least
one character, so fuel `length + 1` is enough.  After a match the previous
character is a digit; the representative digit 0 is used for the next
boundary check. -/
def maskCardScan : Nat → Option Char → List Char → List Char × Bool
  | 0, _, s => (s, false)
  | _ + 1, _, [] => ([], false)
  | fuel + 1, prev, c :: rest =>
    match matchCardAt prev (c :: rest) with
    | some (masked, consumed) =>
      let tl := maskCardScan fuel (some '0') ((c :: rest).drop consumed)
      (masked ++ tl.1, true)
    | none =>
      let tl := maskCardScan fuel (some c) rest
      (c :: tl.1, tl.2)

/-- Modelled from the spec: the plugin's maskValue for the card mask. -/
def maskValueModel (s : List Char) : List Char × Bool :=
  maskCardScan (s.length + 1) none s

/-- Modelled from the spec: the mask action applied to an event object —
every string value is masked in place. -/
def maskFieldsModel : List (List Char × List Char) → List (List Char × List Char) × Bool
  | [] => ([], false)
  | (k, v) :: rest =>
    let vm := maskValueModel v
    let rm := maskFieldsModel rest
    ((k, vm.1) :: rm.1, vm.2 || rm.2)

def stopAlwaysOk : Nat → Bool := fun _ => true

def stopNeverOk : Nat → Bool := fun _ => false

theorem goFindIdx_eq_none {p : Char → Bool} :
    ∀ {s : List Char}, goFindIdx p s = none ↔ ∀ x ∈ s, p x = false := by
  intro s
  induction s with
  | nil => simp [goFindIdx]
  | cons c rest ih =>
    by_cases hc : p c <;> simp [goFindIdx, hc, ih]

theorem goFindIdx_eq_some {p : Char → Bool} :
    ∀ {s : List Char} {i : Nat}, goFindIdx p s = some i →
      ∃ (q : List Char) (c : Char) (r : List Char),
        s = q ++ c :: r ∧ q.length = i ∧ (∀ x ∈ q, p x = false) ∧ p c = true := by
  intro s
  induction s with
  | nil => intro i h; simp [goFindIdx] at h
  | cons c rest ih =>
    intro i h
    by_cases hc : p c
    · simp [goFindIdx, hc] at h
      exact ⟨[], c, rest, by simp, by simpa using h, by simp, by simpa using hc⟩
    · simp [goFindIdx, hc] at h
      obtain ⟨j, hj, hji⟩ := h
      obtain ⟨q, d, r, hs, hlen, hq, hd⟩ := ih hj
      exact ⟨c :: q, d, r, by simp [hs], by simp [hlen, ← hji], by
        intro x hx
        rcases List.mem_cons.mp hx with h1 | h2
        · simpa [h1] using hc
        · exact hq x h2, hd⟩

theorem goFindIdx_append {p : Char → Bool} :
    ∀ (q : List Char) (c : Char) (r : List Char), (∀ x ∈ q, p x = false) → p c = true →
      goFindIdx p (q ++ c :: r) = some q.length := by
  intro q c r hq hc
  induction q with
  | nil => simp [goFindIdx, hc]
  | cons d q' ih =>
    have hd : p d = false := hq d (by simp)
    have ih' := ih (fun x hx => hq x (by simp [hx]))
    simp [goFindIdx, hd, ih']

/-- Index `i` of `q ++ c :: r` at the split point is `c`. -/

theorem get?_append_length :
    ∀ (q : List Char) (c : Char) (r : List Char), (q ++ c :: r).get? q.length = some c := by
  intro q c r
  induction q with
  | nil => rfl
  | cons d q' ih => simpa using ih

theorem take_append_length :
    ∀ (q : List Char) (c : Char) (r : List Char), (q ++ c :: r).take q.length = q := by
  intro q c r
  induction q with
  | nil => rfl
  | cons d q' ih => simpa using ih

theorem drop_append_length_succ :
    ∀ (q : List Char) (c : Char) (r : List Char), (q ++ c :: r).drop (q.length + 1) = r := by
  intro q c r
  induction q with
  | nil => rfl
  | cons d q' ih => simpa using ih

theorem head?_drop_eq_get? :
    ∀ (n : Nat) (l : List Char), (l.drop n).head? = l.get? n := by
  intro n
  induction n with
  | zero => intro l; cases l <;> rfl
  | succ m ih => intro l; cases l with
    | nil => rfl
    | cons a l' => simpa using ih l'

theorem amendedScan_esc (rest tp fp : List Char) :
    amendedScan ('\\' :: '.' :: rest) tp fp = amendedScan rest (tp ++ fp ++ ['.']) [] := by
  simp [amendedScan]

theorem amendedScan_dd (rest tp fp : List Char) :
    amendedScan ('.' :: '.' :: rest) tp fp = amendedScan rest (fp ++ ['.']) [] := by
  simp [amendedScan]

theorem amendedScan_dot (rest tp fp : List Char) (h : rest.head? ≠ some '.') :
    amendedScan ('.' :: rest) tp fp = (tp ++ fp) :: amendedScan rest [] [] := by
  cases rest with
  | nil => simp [amendedScan]
  | cons b rest' =>
    have hb : b ≠ '.' := by simpa using h
    simp [amendedScan, hb]

theorem amendedScan_plain (a : Char) (rest tp fp : List Char)
    (ha : a ≠ '.') (hb : a = '\\' → rest.head? ≠ some '.') :
    amendedScan (a :: rest) tp fp = amendedScan rest tp (fp ++ [a]) := by
  cases rest with
  | nil => simp [amendedScan, ha]
  | cons b rest' =>
    by_cases hab : a = '\\'
    · have hb' : b ≠ '.' := by simpa [hab] using hb hab
      simp [amendedScan, hab, hb', ha]
    · simp [amendedScan, hab, ha]

/-- Consuming a dot-free prefix `q` only moves it into the fresh part of the
current component, provided `q` does not end in a backslash that would combine
with a following dot. -/

theorem amendedScan_plainPrefix :
    ∀ (q : List Char), (∀ x ∈ q, x ≠ '.') →
      ∀ (rest tp fp : List Char), (rest.head? = some '.' → q.getLast? ≠ some '\\') →
        amendedScan (q ++ rest) tp fp = amendedScan rest tp (fp ++ q) := by
  intro q
  induction q with
  | nil => intro _ rest tp fp _; simp
  | cons a q' ih =>
    intro hq rest tp fp hguard
    have ha : a ≠ '.' := hq a (by simp)
    cases q' with
    | nil =>
      have hstep : a = '\\' → rest.head? ≠ some '.' := by
        intro hab hhead
        exact hguard hhead (by simp [hab])
      simpa using amendedScan_plain a rest tp fp ha hstep
    | cons a2 q'' =>
      have ha2 : a2 ≠ '.' := hq a2 (by simp)
      have hstep : a = '\\' → ((a2 :: q'') ++ rest).head? ≠ some '.' := by
        intro _
        simpa using ha2
      have hlast : (a :: a2 :: q'').getLast? = (a2 :: q'').getLast? := by
        simp [List.getLast?_cons_cons]
      calc amendedScan ((a :: a2 :: q'') ++ rest) tp fp
          = amendedScan ((a2 :: q'') ++ rest) tp (fp ++ [a]) := by
            simpa using amendedScan_plain a ((a2 :: q'') ++ rest) tp fp ha hstep
        _ = amendedScan rest tp ((fp ++ [a]) ++ (a2 :: q'')) := by
            refine ih (fun x hx => hq x (by simp [hx])) rest tp (fp ++ [a]) ?_
            intro hhead
            have := hguard hhead
            simpa [hlast] using this
        _ = amendedScan rest tp (fp ++ a :: a2 :: q'') := by simp

/-- A dot-free selector is a single component (unless everything is empty). -/

theorem amendedScan_nodot (sel : List Char) (h : ∀ x ∈ sel, x ≠ '.') (tp fp : List Char) :
    amendedScan sel tp fp = if tp ++ fp ++ sel = [] then [] else [tp ++ fp ++ sel] := by
  have := amendedScan_plainPrefix sel h [] tp fp (by simp)
  simpa [amendedScan] using this

theorem selectorLoop_none (n : Nat) (sel tp : List Char) (res : List (List Char))
    (h : goIndexByte '.' sel = none) :
    selectorLoop (n + 1) sel tp res =
      if sel.length + tp.length ≠ 0 then res ++ [tp ++ sel] else res := by
  simp [selectorLoop, h]

theorem selectorLoop_some (n : Nat) (sel tp : List Char) (res : List (List Char)) (pos : Nat)
    (h : goIndexByte '.' sel = some pos) :
    selectorLoop (n + 1) sel tp res =
      if 0 < pos ∧ sel.get? (pos - 1) = some '\\' then
        selectorLoop n (sel.drop (pos + 1)) (tp ++ sel.take (pos - 1) ++ ['.']) res
      else if sel.get? (pos + 1) = some '.' then
        selectorLoop n (sel.drop (pos + 2)) (sel.take (pos + 1)) res
      else selectorLoop n (sel.drop (pos + 1)) [] (res ++ [tp ++ sel.take pos]) := by
  simp [selectorLoop, h]

/-- The loop of `ParseFieldSelector` computes exactly the amended scan,
given enough fuel. -/

theorem selectorLoop_eq_amendedScan :
    ∀ (fuel : Nat) (sel : List Char), sel.length < fuel → ∀ (tp : List Char)
      (res : List (List Char)), selectorLoop fuel sel tp res = res ++ amendedScan sel tp [] := by
  intro fuel
  induction fuel with
  | zero => intro sel h; omega
  | succ n ih =>
    intro sel hlen tp res
    cases hidx : goIndexByte '.' sel with
    | none =>
      have hnd : ∀ x ∈ sel, x ≠ '.' := by
        intro x hx
        simpa using goFindIdx_eq_none.mp hidx x hx
      rw [selectorLoop_none n sel tp res hidx, amendedScan_nodot sel hnd tp []]
      by_cases h0 : sel.length + tp.length = 0
      · have hsel : sel = [] := List.length_eq_zero.mp (by omega)
        have htp : tp = [] := List.length_eq_zero.mp (by omega)
        subst hsel
        subst htp
        simp
      · have hne : tp ++ [] ++ sel ≠ [] := by
          intro hcontr
          have hts : tp = [] ∧ sel = [] := by simpa using hcontr
          exact h0 (by simp [hts.1, hts.2])
        rw [if_pos h0, if_neg hne]
        simp
    | some pos =>
      obtain ⟨q, c, r, hsel, hqlen, hqnd, hc⟩ := goFindIdx_eq_some hidx
      have hcdot : c = '.' := by simpa using hc
      subst hcdot
      subst hsel
      subst hqlen
      have hqnd' : ∀ x ∈ q, x ≠ '.' := by
        intro x hx
        simpa using hqnd x hx
      simp only [List.length_append, List.length_cons] at hlen
      have hdrop1 : (q ++ '.' :: r).drop (q.length + 1) = r := drop_append_length_succ q '.' r
      have htakeq : (q ++ '.' :: r).take q.length = q := take_append_length q '.' r
      have hget1 : (q ++ '.' :: r).get? (q.length + 1) = r.head? := by
        rw [← head?_drop_eq_get?, hdrop1]
      rw [selectorLoop_some n _ tp res q.length hidx]
      rcases List.eq_nil_or_concat q with hq0 | ⟨q', d, hqd⟩
      · -- the first dot is the first character: the backslash branch is impossible
        subst hq0
        simp only [List.length_nil, List.nil_append] at hget1 hdrop1 htakeq ⊢
        rw [if_neg (by simp)]
        by_cases hr : r.head? = some '.'
        · cases r with
          | nil => simp at hr
          | cons e r' =>
            have he : e = '.' := by simpa using hr
            subst he
            rw [if_pos (by rw [hget1]; exact hr)]
            rw [show List.drop (0 + 2) ('.' :: '.' :: r') = r' from rfl,
              show List.take (0 + 1) ('.' :: '.' :: r') = ['.'] from rfl]
            rw [ih r' (by simp at hlen; omega) ['.'] res]
            rw [amendedScan_dd r' tp []]
            simp
        · rw [if_neg (by rw [hget1]; exact hr)]
          rw [show List.drop (0 + 1) ('.' :: r) = r from rfl,
            show List.take 0 ('.' :: r) = [] from rfl]
          rw [ih r (by simp at hlen; omega) [] _]
          rw [amendedScan_dot r tp [] hr]
          simp
      · subst hqd
        simp only [List.concat_eq_append] at hlen hqnd' hdrop1 htakeq hget1 ⊢
        have e1 : q' ++ [d] ++ '.' :: r = q' ++ d :: ('.' :: r) := by simp
        have e2 : (q' ++ [d]).length - 1 = q'.length := by simp
        have hgetprev : (q' ++ [d] ++ '.' :: r).get? ((q' ++ [d]).length - 1) = some d := by
          rw [e1, e2]
          exact get?_append_length q' d ('.' :: r)
        have hlast : (q' ++ [d]).getLast? = some d := by simp
        by_cases hdc : d = '\\'
        · subst hdc
          rw [if_pos ⟨by simp, hgetprev⟩]
          have htake' : (q' ++ ['\\'] ++ '.' :: r).take ((q' ++ ['\\']).length - 1) = q' := by
            rw [e1, e2]
            exact take_append_length q' '\\' ('.' :: r)
          rw [htake', hdrop1, ih r (by simp at hlen ⊢; omega) (tp ++ q' ++ ['.']) res]
          have e3 : q' ++ ['\\'] ++ '.' :: r = q' ++ ('\\' :: '.' :: r) := by simp
          rw [e3, amendedScan_plainPrefix q' (fun x hx => hqnd' x (by simp [hx]))
            ('\\' :: '.' :: r) tp [] (by intro hcontr; simp at hcontr)]
          rw [amendedScan_esc r tp ([] ++ q')]
          simp
        · rw [if_neg (by
            rintro ⟨-, hcontr⟩
            rw [hgetprev] at hcontr
            exact hdc (by injection hcontr))]
          have hplain := amendedScan_plainPrefix (q' ++ [d]) hqnd' ('.' :: r) tp []
            (by intro _; rw [hlast]; intro hcontr; exact hdc (by injection hcontr))
          by_cases hr : r.head? = some '.'
          · cases r with
            | nil => simp at hr
            | cons e r' =>
              have he : e = '.' := by simpa using hr
              subst he
              rw [if_pos (by rw [hget1]; exact hr)]
              have e4 : q' ++ [d] ++ '.' :: '.' :: r' = (q' ++ [d] ++ ['.']) ++ '.' :: r' := by
                simp
              have e5 : (q' ++ [d]).length + 2 = (q' ++ [d] ++ ['.']).length + 1 := by simp
              have hdrop2 : (q' ++ [d] ++ '.' :: '.' :: r').drop ((q' ++ [d]).length + 2) = r' := by
                rw [e4, e5]
                exact drop_append_length_succ (q' ++ [d] ++ ['.']) '.' r'
              have e6 : (q' ++ [d]).length + 1 = (q' ++ [d] ++ ['.']).length := by simp
              have htake1 : (q' ++ [d] ++ '.' :: '.' :: r').take ((q' ++ [d]).length + 1) =
                  q' ++ [d] ++ ['.'] := by
                rw [e4, e6]
                exact take_append_length (q' ++ [d] ++ ['.']) '.' r'
              rw [hdrop2, htake1, ih r' (by simp at hlen ⊢; omega) _ res]
              rw [show q' ++ [d] ++ '.' :: '.' :: r' = (q' ++ [d]) ++ '.' :: '.' :: r' from by simp]
              rw [hplain, amendedScan_dd r' tp ([] ++ (q' ++ [d]))]
              simp
          · rw [if_neg (by rw [hget1]; exact hr)]
            rw [hdrop1, htakeq, ih r (by simp at hlen ⊢; omega) [] _]
            rw [show q' ++ [d] ++ '.' :: r = (q' ++ [d]) ++ '.' :: r from by simp]
            rw [hplain, amendedScan_dot r tp ([] ++ (q' ++ [d])) hr]
            simp

/-- What the code computes: `ParseFieldSelector` equals the amended scan. -/

theorem parseFieldSelector_eq_amended (selector : List Char) :
    ParseFieldSelector selector = parseSelectorAmended selector := by
  unfold ParseFieldSelector parseSelectorAmended
  rw [selectorLoop_eq_amendedScan (selector.length + 1) selector (by omega) [] []]
  simp

/-- C1, counterexample: the claim as stated fails on the code.  On the
selector a..b..c the specified semantics gives the single component a.b.c,
but ParseFieldSelector returns the single component b.c: the doubled-dot
branch of the loop overwrites the component prefix accumulated so far. -/
theorem parseFieldSelector_spec_counterexample :
    ¬ (ParseFieldSelector ['a', '.', '.', 'b', '.', '.', 'c'] =
        parseSelectorSpec ['a', '.', '.', 'b', '.', '.', 'c']) := by
  decide

/-- C1 (amended): for every selector string, ParseFieldSelector splits it
into components at unescaped dots; a backslash-escaped dot contributes a
literal dot to the current component and a doubled dot contributes an
embedded dot, except that a doubled dot discards the part of the current
component accumulated by earlier escaped or doubled dots (the component
restarts just after the previously consumed escape).  The three examples of
the claim still hold: a\.b and a..b parse to the single component a.b, and
a.b parses to the components a, b. -/
theorem parseFieldSelector_amended_correct :
    (∀ selector : List Char, ParseFieldSelector selector = parseSelectorAmended selector) ∧
    ParseFieldSelector ['a', '\\', '.', 'b'] = [['a', '.', 'b']] ∧
    ParseFieldSelector ['a', '.', '.', 'b'] = [['a', '.', 'b']] ∧
    ParseFieldSelector ['a', '.', 'b'] = [['a'], ['b']] :=
  ⟨parseFieldSelector_eq_amended, by decide, by decide, by decide⟩

/-- C2, counterexample: the claim as stated fails on the code.  The string -5
is a single integer literal (strconv.Atoi accepts it), so the claim evaluates
it to -5; but the code splits the string at the *first* operator character,
which here is the leading minus sign, and then fails to resolve the empty
left operand, returning an error. -/
theorem parseExpression_claim_counterexample :
    ¬ (parseExpressionValue "-5".data stdEnv = ExprOut.ok (-5) ↔
        ClaimExprAccept stdEnv "-5".data (-5)) := by
  intro h
  have hacc : ClaimExprAccept stdEnv "-5".data (-5) :=
    ClaimExprAccept.lit _ _ (by decide)
  exact absurd (h.mpr hacc) (by decide)

/-- C2 (amended): for every config field tagged parse:"expression", the
evaluator stores integer r exactly when the string is a single integer
literal (in the int64 range, per strconv.Atoi) containing no operator
character, or splits at its first operator character into a left operand free
of operator characters and a right operand, both resolving (after trimming)
as integer literals or names of the integer environment, with the operator
applied to them in Go's wrapping 64-bit integer arithmetic — where a division
additionally needs a non-zero divisor (a zero divisor panics instead, see
C8).  Every other form is not evaluated to an integer. -/
theorem parseExpression_ok_iff_amended :
    ∀ (env : List (List Char × Int)) (s : List Char) (r : Int),
      parseExpressionValue s env = ExprOut.ok r ↔ AmendedExprAccept env s r := by
  intro env s r
  constructor
  · intro h
    unfold parseExpressionValue at h
    cases hidx : goFindIdx isOpChar s with
    | none =>
      rw [hidx] at h
      cases hat : goAtoi s with
      | none => rw [hat] at h; cases h
      | some n =>
        rw [hat] at h
        have hn : n = r := by injection h
        subst hn
        exact AmendedExprAccept.lit s n (goFindIdx_eq_none.mp hidx) hat
    | some pos =>
      obtain ⟨q, c, r2, hs, hql, hqf, hc⟩ := goFindIdx_eq_some hidx
      subst hs
      subst hql
      rw [hidx] at h
      simp only [take_append_length, get?_append_length, drop_append_length_succ,
        Option.getD_some] at h
      cases hr1 : resolveOperand env (goTrimSpace q) with
      | none => rw [hr1] at h; cases h
      | some a =>
        rw [hr1] at h
        cases hr2 : resolveOperand env (goTrimSpace r2) with
        | none => rw [hr2] at h; cases h
        | some b =>
          rw [hr2] at h
          have hops : c = '*' ∨ c = '/' ∨ c = '+' ∨ c = '-' := by
            simpa [isOpChar] using hc
          rcases hops with h4 | h4 | h4 | h4 <;> subst h4 <;> simp at h
          · exact AmendedExprAccept.binop q '*' r2 a b r hqf hc hr1 hr2 (by simp)
              (by simp [applyBinOp, h])
          · by_cases hb : b = 0
            · simp [hb] at h
            · simp [hb] at h
              exact AmendedExprAccept.binop q '/' r2 a b r hqf hc hr1 hr2 (fun _ => hb)
                (by simp [applyBinOp, h])
          · exact AmendedExprAccept.binop q '+' r2 a b r hqf hc hr1 hr2 (by simp)
              (by simp [applyBinOp, h])
          · exact AmendedExprAccept.binop q '-' r2 a b r hqf hc hr1 hr2 (by simp)
              (by simp [applyBinOp, h])
  · intro h
    cases h with
    | lit s n hfree hat =>
      have hidx : goFindIdx isOpChar s = none := goFindIdx_eq_none.mpr hfree
      unfold parseExpressionValue
      rw [hidx, hat]
    | binop s1 c s2 a b r hfree hop h1 h2 hdiv hr =>
      have hidx : goFindIdx isOpChar (s1 ++ c :: s2) = some s1.length :=
        goFindIdx_append s1 c s2 hfree hop
      unfold parseExpressionValue
      rw [hidx]
      simp only [take_append_length, get?_append_length, drop_append_length_succ,
        Option.getD_some]
      rw [h1, h2]
      have hops : c = '*' ∨ c = '/' ∨ c = '+' ∨ c = '-' := by
        simpa [isOpChar] using hop
      rcases hops with h4 | h4 | h4 | h4 <;> subst h4 <;>
        simp [applyBinOp] at hr <;> simp [hr]
      exact hdiv rfl

/-- Fidelity of the Atoi model at the int64 range boundary: one past
math.MaxInt64 is a range error, the two boundary values themselves parse. -/
theorem goAtoi_int64_range_boundary :
    goAtoi "9223372036854775808".data = none ∧
    goAtoi "9223372036854775807".data = some int64Max ∧
    goAtoi "-9223372036854775808".data = some int64Min := by
  decide

/-- Fidelity of the evaluator's Go int arithmetic: math.MaxInt64 * 2 wraps to
-2, and a lone out-of-range literal is a conversion error. -/
theorem parseExpression_int64_wrap_boundary :
    parseExpressionValue "9223372036854775807*2".data stdEnv = ExprOut.ok (-2) ∧
    parseExpressionValue "9223372036854775808".data stdEnv =
      ExprOut.err ("cannot convert to int: ".data ++ "9223372036854775808".data) := by
  decide

/-- C8: for the well-typed expression config value capacity/0 — a division
whose second operand resolves to 0 — the evaluator performs an unguarded
integer division and panics instead of returning an error. -/
theorem parseExpression_division_by_zero_panics :
    parseExpressionValue "capacity/0".data stdEnv = ExprOut.panicked := by
  decide

/-- C3: masking the scenario input with the card regex and groups [1,2,3,4]
replaces every digit of all four groups with an asterisk, producing the
masked card and reporting that masking occurred; the event with that value in
field1 leaves the mask action with the masked value.  (The mask plugin body
is not among the available sources; the masking behaviour is modelled from
the specification scenario, see `matchCardAt` and `maskCardScan`.) -/
theorem maskCardScenario_correct :
    maskValueModel "5408-7430-0756-2004".data = ("****-****-****-****".data, true) ∧
    maskFieldsModel [("field1".data, "5408-7430-0756-2004".data)] =
      ([("field1".data, "****-****-****-****".data)], true) := by
  exact ⟨by decide, by decide⟩

theorem insertRetryLoop_allFail (attempt : Nat → Bool) :
    ∀ (i k : Nat), (∀ d, d < i → attempt (k + d) = false) →
      insertRetryLoop attempt i k =
        { attempts := k + i, sleeps := k + i, succeeded := false } := by
  intro i
  induction i with
  | zero => intro k _; simp [insertRetryLoop]
  | succ n ih =>
    intro k h
    have h0 : attempt k = false := by simpa using h 0 (by omega)
    have harith : k + 1 + n = k + (n + 1) := by omega
    rw [show insertRetryLoop attempt (n + 1) k =
      (if attempt k then { attempts := k + 1, sleeps := k, succeeded := true }
        else insertRetryLoop attempt n (k + 1)) from rfl]
    rw [if_neg (by simp [h0])]
    rw [ih (k + 1) (fun d hd => by
      have harith2 : k + 1 + d = k + (d + 1) := by omega
      rw [harith2]
      exact h (d + 1) (by omega))]
    rw [harith]

theorem insertRetryLoop_firstSuccess (attempt : Nat → Bool) :
    ∀ (i k j : Nat), j < i → attempt (k + j) = true → (∀ d, d < j → attempt (k + d) = false) →
      insertRetryLoop attempt i k =
        { attempts := k + j + 1, sleeps := k + j, succeeded := true } := by
  intro i
  induction i with
  | zero => intro k j hj; omega
  | succ n ih =>
    intro k j hj hsucc hfail
    cases j with
    | zero =>
      have h0 : attempt k = true := by simpa using hsucc
      simp [insertRetryLoop, h0]
    | succ m =>
      have h0 : attempt k = false := by simpa using hfail 0 (by omega)
      rw [show insertRetryLoop attempt (n + 1) k =
        (if attempt k then { attempts := k + 1, sleeps := k, succeeded := true }
          else insertRetryLoop attempt n (k + 1)) from rfl]
      rw [if_neg (by simp [h0])]
      have harith : k + 1 + m = k + (m + 1) := by omega
      rw [ih (k + 1) m (by omega) (by rw [harith]; exact hsucc) (fun d hd => by
        have harith2 : k + 1 + d = k + (d + 1) := by omega
        rw [harith2]
        exact hfail (d + 1) (by omega))]
      rw [harith]

theorem insertRetryLoop_bound (attempt : Nat → Bool) :
    ∀ (i k : Nat), (insertRetryLoop attempt i k).attempts ≤ k + i := by
  intro i
  induction i with
  | zero => intro k; simp [insertRetryLoop]
  | succ n ih =>
    intro k
    rw [show insertRetryLoop attempt (n + 1) k =
      (if attempt k then { attempts := k + 1, sleeps := k, succeeded := true }
        else insertRetryLoop attempt n (k + 1)) from rfl]
    by_cases h : attempt k
    · simp [h]
    · rw [if_neg (by simp [h])]
      have := ih (k + 1)
      omega

/-- C4: for a batch whose insert query fails, the clickhouse output retries
the insert a bounded number of times — at most the configured retry, whose
default is 3 — sleeping one retention period (default 50 ms) after each
failure; if every attempt fails it closes the connection pool and crashes the
process, and on the first successful attempt it stops retrying (a success at
attempt index j means j+1 attempts and j sleeps in between). -/
theorem clickhouseRetryPolicy_correct :
    ∀ (retry : Nat) (attempt : Nat → Bool), 1 ≤ retry →
      (insertRetryLoop attempt retry 0).attempts ≤ retry ∧
      ((∀ k, k < retry → attempt k = false) →
        clickhouseInsertWithRetry retry attempt = ChOutResult.fatalPoolClosed retry retry) ∧
      (∀ j, j < retry → attempt j = true → (∀ k, k < j → attempt k = false) →
        clickhouseInsertWithRetry retry attempt = ChOutResult.written (j + 1) j) ∧
      clickhouseRetryDefault = 3 ∧ clickhouseRetentionDefaultMs = 50 := by
  intro retry attempt hretry
  refine ⟨?_, ?_, ?_, rfl, rfl⟩
  · simpa using insertRetryLoop_bound attempt retry 0
  · intro hall
    have hloop := insertRetryLoop_allFail attempt retry 0 (fun d hd => by
      simpa using hall d (by omega))
    unfold clickhouseInsertWithRetry
    rw [hloop]
    simp
    omega
  · intro j hj hsucc hfail
    have hloop := insertRetryLoop_firstSuccess attempt retry 0 j hj (by simpa using hsucc)
      (fun d hd => by simpa using hfail d hd)
    unfold clickhouseInsertWithRetry
    rw [hloop]
    simp

/-- C4 witness: with retry 3 and an always-failing insert the output makes
exactly 3 attempts, sleeps 3 times, closes the pool and crashes; with an
insert succeeding on the second attempt it stops after 2 attempts. -/
theorem clickhouseRetryPolicy_witness :
    1 ≤ 3 ∧
    clickhouseInsertWithRetry 3 alwaysFailingInsert = ChOutResult.fatalPoolClosed 3 3 ∧
    clickhouseInsertWithRetry 3 succeedOnSecondInsert = ChOutResult.written 2 1 := by
  refine ⟨by decide, ?_, ?_⟩
  · exact (clickhouseRetryPolicy_correct 3 alwaysFailingInsert (by decide)).2.1
      (fun k _ => rfl)
  · exact (clickhouseRetryPolicy_correct 3 succeedOnSecondInsert (by decide)).2.2.1 1
      (by decide) (by decide) (fun k hk => by
        have hk0 : k = 0 := by omega
        subst hk0
        decide)

/-- C6: on SIGINT or SIGTERM the daemon stops with the 3-second deadline and,
when the stop succeeds, exits with code 0; on SIGHUP it stops with the same
deadline and constructs a fresh instance from the config file instead of
exiting; a stop that fails within the deadline exits with a non-zero code. -/
theorem listenSignals_correct :
    ∀ (stopOk : Nat → Bool),
      (stopOk 3 = true →
        listenSignalsStep stopOk GoSignal.sigint = DaemonAction.exitWithCode 0 ∧
        listenSignalsStep stopOk GoSignal.sigterm = DaemonAction.exitWithCode 0 ∧
        listenSignalsStep stopOk GoSignal.sighup = DaemonAction.restartFromConfigFile) ∧
      (stopOk 3 = false →
        ∀ s, listenSignalsStep stopOk s = DaemonAction.exitWithCode 1) ∧
      stopTimeoutSeconds = 3 := by
  intro stopOk
  refine ⟨?_, ?_, rfl⟩
  · intro h
    simp [listenSignalsStep, stopTimeoutSeconds, h]
  · intro h s
    cases s <;> simp [listenSignalsStep, stopTimeoutSeconds, h]

/-- C6 witness: a stop that succeeds leads to exit code 0 on SIGINT and a
restart on SIGHUP; a stop that fails leads to exit code 1. -/
theorem listenSignals_witness :
    stopAlwaysOk 3 = true ∧
    listenSignalsStep stopAlwaysOk GoSignal.sigint = DaemonAction.exitWithCode 0 ∧
    listenSignalsStep stopAlwaysOk GoSignal.sighup = DaemonAction.restartFromConfigFile ∧
    stopNeverOk 3 = false ∧
    listenSignalsStep stopNeverOk GoSignal.sigterm = DaemonAction.exitWithCode 1 := by
  have h1 := (listenSignals_correct stopAlwaysOk).1 rfl
  have h2 := (listenSignals_correct stopNeverOk).2.1 rfl
  exact ⟨rfl, h1.1, h1.2.2, rfl, h2 GoSignal.sigterm⟩

/-- C9: a string config value of the form vault(x) whose parenthesised text
contains no comma makes tryGetSecret index the second element of a
one-element slice, which panics during config loading instead of producing a
config error. -/
theorem tryGetSecret_nocomma_panics :
    tryGetSecret "vault(x)".data = SecretOut.panicked := by
  decide

/-- C10: for a timestamp column, addFieldToValues returns the
distant-past-or-future error exactly when the field value is negative or
exceeds 221842627200; an in-range value yields the RFC3339 rendering of the
value as Unix seconds; an event carrying an out-of-range value is discarded
from the batch (crashing the process in strict mode) and never inserted. -/
theorem addTimestampField_range_correct :
    ∀ (tint : Int) (strict : Bool),
      (addTimestampFieldValue tint = Except.error ChFieldErr.timestampDistantPastOrFuture ↔
        tint < 0 ∨ tint > (nineThousandYear : Int)) ∧
      (¬(tint < 0 ∨ tint > (nineThousandYear : Int)) →
        addTimestampFieldValue tint = Except.ok (rfc3339OfUnix tint.toNat) ∧
        processTimestampEvent strict tint = EventOutcome.inserted (rfc3339OfUnix tint.toNat)) ∧
      ((tint < 0 ∨ tint > (nineThousandYear : Int)) →
        processTimestampEvent strict tint =
          (if strict then EventOutcome.fatalCrash else EventOutcome.discarded) ∧
        ∀ v, processTimestampEvent strict tint ≠ EventOutcome.inserted v) := by
  intro tint strict
  refine ⟨⟨?_, ?_⟩, ?_, ?_⟩
  · intro h
    by_contra hc
    unfold addTimestampFieldValue at h
    rw [if_neg hc] at h
    cases h
  · intro h
    unfold addTimestampFieldValue
    rw [if_pos h]
  · intro h
    unfold processTimestampEvent addTimestampFieldValue
    rw [if_neg h]
    exact ⟨rfl, rfl⟩
  · intro h
    unfold processTimestampEvent addTimestampFieldValue
    rw [if_pos h]
    cases strict <;> simp

/-- C10 witness: 1600000000 is in range and renders as
2020-09-13T12:26:40Z; the value -1 is rejected and the event discarded in
non-strict mode. -/
theorem addTimestampField_range_witness :
    ¬((1600000000 : Int) < 0 ∨ (1600000000 : Int) > (nineThousandYear : Int)) ∧
    addTimestampFieldValue 1600000000 = Except.ok "2020-09-13T12:26:40Z".data ∧
    processTimestampEvent false (-1) = EventOutcome.discarded := by
  refine ⟨by decide, ?_, ?_⟩
  · have := ((addTimestampField_range_correct 1600000000 false).2.1 (by decide)).1
    rw [this]
    rfl
  · have := ((addTimestampField_range_correct (-1) false).2.2 (by decide)).1
    simpa using this

theorem goSplitCharAux_sepFree (sep : Char) :
    ∀ (q : List Char), (∀ x ∈ q, x ≠ sep) → ∀ (rest acc : List Char),
      goSplitCharAux sep (q ++ rest) acc = goSplitCharAux sep rest (acc ++ q) := by
  intro q
  induction q with
  | nil => intro _ rest acc; simp
  | cons a q' ih =>
    intro hq rest acc
    have ha : a ≠ sep := hq a (by simp)
    rw [show (a :: q') ++ rest = a :: (q' ++ rest) from rfl]
    rw [show goSplitCharAux sep (a :: (q' ++ rest)) acc =
      (if a = sep then acc :: goSplitCharAux sep (q' ++ rest) []
        else goSplitCharAux sep (q' ++ rest) (acc ++ [a])) from rfl]
    rw [if_neg ha, ih (fun x hx => hq x (by simp [hx])) rest (acc ++ [a])]
    simp

/-- C5: for an environment entry whose name starts with FILED_, applyEnvs
overrides the config at the path obtained by lowercasing the name, splitting
on underscores and dropping the first segment — which is exactly the filed
prefix segment — setting it to the entry value; a name without the prefix
leaves the config unchanged.  (The name must not itself contain an equals
sign, which is the shape of real environment entries.) -/
theorem applyEnvs_override_correct :
    ∀ (json : Jx) (k v : List Char), '=' ∉ k →
      (filedPre.isPrefixOf k = true →
        applyEnvOne json (k ++ '=' :: v) =
          Except.ok (setPath json (envOverridePath k) (Jx.str v)) ∧
        (goSplitChar (goToLower k) '_').head? = some "filed".data) ∧
      (filedPre.isPrefixOf k = false →
        applyEnvOne json (k ++ '=' :: v) = Except.ok json) := by
  intro json k v hk
  have hfree : ∀ x ∈ k, (fun c => c = '=' : Char → Bool) x = false := by
    intro x hx
    simp only [decide_eq_false_iff_not]
    intro hxe
    exact hk (hxe ▸ hx)
  have hidx : goIndexByte '=' (k ++ '=' :: v) = some k.length :=
    goFindIdx_append k '=' v hfree (by simp)
  have hsplit : goSplitN2 (k ++ '=' :: v) '=' = [k, v] := by
    unfold goSplitN2
    rw [hidx]
    show [List.take k.length (k ++ '=' :: v), List.drop (k.length + 1) (k ++ '=' :: v)] = [k, v]
    rw [take_append_length, drop_append_length_succ]
  constructor
  · intro hpre
    constructor
    · unfold applyEnvOne
      rw [hsplit]
      simp [hpre, envOverridePath]
    · obtain ⟨rest, hrest⟩ := List.isPrefixOf_iff_prefix.mp hpre
      subst hrest
      have hlow : goToLower (filedPre ++ rest) = "filed".data ++ '_' :: goToLower rest := by
        unfold goToLower
        rw [List.map_append]
        rfl
      rw [show goSplitChar (goToLower (filedPre ++ rest)) '_' =
        goSplitCharAux '_' (goToLower (filedPre ++ rest)) [] from rfl]
      rw [hlow, goSplitCharAux_sepFree '_' "filed".data (by decide) ('_' :: goToLower rest) []]
      rw [show goSplitCharAux '_' ('_' :: goToLower rest) ([] ++ "filed".data) =
        ([] ++ "filed".data) :: goSplitCharAux '_' (goToLower rest) [] from rfl]
      rfl
  · intro hpre
    unfold applyEnvOne
    rw [hsplit]
    simp [hpre]

/-- C5 witness: the variable FILED_A_B=val overrides path [a, b]; a variable
OTHER_A=val leaves the config unchanged. -/
theorem applyEnvs_override_witness :
    '=' ∉ "FILED_A_B".data ∧
    applyEnvOne (Jx.obj []) ("FILED_A_B".data ++ '=' :: "val".data) =
      Except.ok (setPath (Jx.obj []) (envOverridePath "FILED_A_B".data)
        (Jx.str "val".data)) ∧
    '=' ∉ "OTHER_A".data ∧
    applyEnvOne (Jx.obj []) ("OTHER_A".data ++ '=' :: "val".data) =
      Except.ok (Jx.obj []) := by
  refine ⟨by decide, ?_, by decide, ?_⟩
  · exact ((applyEnvs_override_correct (Jx.obj []) "FILED_A_B".data "val".data
      (by decide)).1 (by decide)).1
  · exact (applyEnvs_override_correct (Jx.obj []) "OTHER_A".data "val".data
      (by decide)).2 (by decide)

/-- C7: a parsed configuration defining zero pipelines fails fatally (the
model returns the fatal error, the process would exit non-zero) before any
pipeline is constructed; with at least one pipeline, parseConfig returns a
Config with exactly one PipelineConfig entry per pipeline key. -/
theorem parseConfig_pipelines_correct :
    ∀ (json : Jx),
      (jxFields (jxGet json "pipelines".data) = [] →
        parseConfigModel json = Except.error "no pipelines defined in config".data) ∧
      (jxFields (jxGet json "pipelines".data) ≠ [] →
        ∃ cfg, parseConfigModel json = Except.ok cfg ∧
          cfg.pipelines.map Prod.fst = (jxFields (jxGet json "pipelines".data)).map Prod.fst ∧
          cfg.pipelines.length = (jxFields (jxGet json "pipelines".data)).length) := by
  intro json
  constructor
  · intro h
    unfold parseConfigModel
    simp [h]
  · intro h
    have hlen : ¬(jxFields (jxGet json "pipelines".data)).length = 0 := by
      simpa [List.length_eq_zero] using h
    unfold parseConfigModel
    rw [if_neg hlen]
    refine ⟨_, rfl, ?_, ?_⟩
    · simp
    · simp

/-- C7 witness: a config with the single pipeline p1 parses to a Config with
exactly that pipeline entry; a config whose pipelines object is empty is a
fatal error. -/
theorem parseConfig_pipelines_witness :
    (jxFields (jxGet (Jx.obj [("pipelines".data, Jx.obj [("p1".data, Jx.null)])])
      "pipelines".data) ≠ []) ∧
    (∃ cfg, parseConfigModel (Jx.obj [("pipelines".data, Jx.obj [("p1".data, Jx.null)])]) =
      Except.ok cfg ∧
      cfg.pipelines.map Prod.fst =
        (jxFields (jxGet (Jx.obj [("pipelines".data, Jx.obj [("p1".data, Jx.null)])])
          "pipelines".data)).map Prod.fst ∧
      cfg.pipelines.length =
        (jxFields (jxGet (Jx.obj [("pipelines".data, Jx.obj [("p1".data, Jx.null)])])
          "pipelines".data)).length) ∧
    parseConfigModel (Jx.obj []) = Except.error "no pipelines defined in config".data := by
  refine ⟨?_, ?_, ?_⟩
  · intro hcontr
    exact List.noConfusion hcontr
  · exact (parseConfig_pipelines_correct (Jx.obj [("pipelines".data,
      Jx.obj [("p1".data, Jx.null)])])).2 (fun hcontr => List.noConfusion hcontr)
  · exact (parseConfig_pipelines_correct (Jx.obj [])).1 rfl
